import Mathlib

/-!
Verification of the `store` package, a thin façade over the Bolt (bbolt)
key/value engine.  The embedding models the engine state a store wraps:
buckets are association lists sorted by key (bbolt keeps keys in ascending
byte-lexicographic order), keys and values are byte strings modelled as
`List Nat`.  Each façade operation from `store.go` (and the older variant
kept in the repository, which contributes `AllKeys`/`FindKeys`/`NewStore`)
is translated directly; engine-internal failures (I/O errors, read-only
database) are outside the model, and bbolt's guarantees that keys are
non-empty and cursor iteration is sorted appear as well-formedness
hypotheses on buckets.
-/

/-- Keys are raw byte strings (Go `string` compared byte-wise). -/
abbrev Key := List Nat

/-- Values are opaque byte slices (Go `[]byte`). -/
abbrev Val := List Nat

/-- One key/value entry of a bucket. -/
abbrev Entry := Key × Val

/-- Byte-lexicographic strict order on keys, as `bytes.Compare < 0` in Go;
a proper prefix is smaller than its extensions. -/
def keyLt : Key → Key → Bool
  | [], [] => false
  | [], _ :: _ => true
  | _ :: _, [] => false
  | a :: as, b :: bs =>
    if a < b then true else if b < a then false else keyLt as bs

/-- Non-strict byte-lexicographic order on keys. -/
def keyLe (a b : Key) : Bool := !(keyLt b a)

/-- Test whether `k` starts with `p` byte-for-byte, as Go `bytes.HasPrefix(k, p)`. -/
def hasPre : Key → Key → Bool
  | [], _ => true
  | _ :: _, [] => false
  | p :: ps, k :: ks => p = k && hasPre ps ks

/-- Test whether `needle` occurs as a contiguous substring of the haystack,
as Go `strings.Contains(haystack, needle)`. -/
def containsSub : Key → Key → Bool
  | [], needle => hasPre needle []
  | k :: ks, needle => hasPre needle (k :: ks) || containsSub ks needle

/-- A bucket: the entries bbolt stores under one named bucket, listed in the
engine's cursor order. -/
abbrev Bucket := List Entry

/-- `bucketRef.Get(key)`: the value stored at a key, `none` for a missing key. -/
def bucketGet : Bucket → Key → Option Val
  | [], _ => none
  | (k, v) :: rest, key => if k = key then some v else bucketGet rest key

/-- `bucketRef.Put(key, value)`: insert keeping sorted order, or replace the
value at an existing key (a put overwrites; bbolt keeps one value per key). -/
def put : Bucket → Key → Val → Bucket
  | [], key, val => [(key, val)]
  | (k, v) :: rest, key, val =>
    if keyLt key k then (key, val) :: (k, v) :: rest
    else if k = key then (key, val) :: rest
    else (k, v) :: put rest key val

/-- `bucketRef.Delete(key)`: remove an entry; deleting an absent key is a no-op. -/
def erase : Bucket → Key → Bucket
  | [], _ => []
  | (k, v) :: rest, key => if k = key then rest else (k, v) :: erase rest key

/-- `cursor.Seek(key)` followed by repeated `Next()`: the suffix of the bucket
from the first entry whose key is `≥ key` onward. -/
def seek (bk : Bucket) (key : Key) : List Entry :=
  bk.dropWhile (fun e => keyLt e.1 key)

/-- The database root: named top-level buckets in the engine's key order. -/
abbrev DB := List (Key × Bucket)

/-- `tx.Bucket(name)`: look up a top-level bucket, `none` when absent. -/
def getBucket : DB → Key → Option Bucket
  | [], _ => none
  | (n, b) :: rest, name => if n = name then some b else getBucket rest name

/-- `tx.CreateBucketIfNotExists(name)`: create an empty bucket when absent
(inserted in root key order), leave the database unchanged when present. -/
def createBucketIfNotExists : DB → Key → DB
  | [], name => [(name, [])]
  | (n, b) :: rest, name =>
    if n = name then (n, b) :: rest
    else if keyLt name n then (name, []) :: (n, b) :: rest
    else (n, b) :: createBucketIfNotExists rest name

/-- `tx.DeleteBucket(name)` after a successful existence check: remove the
bucket and all its entries from the root. -/
def dropBucket : DB → Key → DB
  | [], _ => []
  | (n, b) :: rest, name => if n = name then rest else (n, b) :: dropBucket rest name

/-- Replace the contents of an existing bucket (the in-place mutation a write
transaction performs on the bucket it obtained from `tx.Bucket`). -/
def setBucket : DB → Key → Bucket → DB
  | [], _, _ => []
  | (n, b) :: rest, name, nb =>
    if n = name then (n, nb) :: rest else (n, b) :: setBucket rest name nb

/-- Error kinds the façade produces (`fmt.Errorf` messages in `store.go`,
classified by kind; message text is immaterial). -/
inductive StoreErr where
  | bucketNotExist (bucket : Key)
  | keyNotExist (key : Key)
  | bucketDeleteFailed (bucket : Key)
deriving DecidableEq

deriving instance DecidableEq for Except

/-- `Store.CreateBucket`: one `Update` transaction running
`tx.CreateBucketIfNotExists`; the engine-failure branch (read-only database,
engine constraint violation) is outside the model, so the call succeeds.
Returns the database after the transaction together with the returned error. -/
def Store.CreateBucket (db : DB) (bucket : Key) : DB × Option StoreErr :=
  (createBucketIfNotExists db bucket, none)

/-- `Store.DeleteBucket`: one `Update` transaction running `tx.DeleteBucket`,
which reports an error for an absent bucket; the transaction aborts on error,
leaving the database unchanged. -/
def Store.DeleteBucket (db : DB) (bucket : Key) : DB × Option StoreErr :=
  match getBucket db bucket with
  | none => (db, some (.bucketDeleteFailed bucket))
  | some _ => (dropBucket db bucket, none)

/-- `Store.Write`: one `Batch` transaction; fails with the bucket-not-exist
error when the bucket is absent (transaction aborted, database unchanged),
otherwise puts the key/value pair. -/
def Store.Write (db : DB) (bucket key : Key) (value : Val) : DB × Option StoreErr :=
  match getBucket db bucket with
  | none => (db, some (.bucketNotExist bucket))
  | some b => (setBucket db bucket (put b key value), none)

/-- `Store.Read`: one `View` transaction; returns the value (first component,
`none` models a nil slice) and the error (second component).  A missing
bucket and a missing key each produce an error in `store.go`: `val == nil` after
`Get` triggers the key-does-not-exist error branch. -/
def Store.Read (db : DB) (bucket key : Key) : Option Val × Option StoreErr :=
  match getBucket db bucket with
  | none => (none, some (.bucketNotExist bucket))
  | some b =>
    match bucketGet b key with
    | none => (none, some (.keyNotExist key))
    | some v => (some v, none)

/-- `Store.Delete`: one `Update` transaction; fails with the bucket-not-exist
error when the bucket is absent (database unchanged), otherwise removes the
key (removing an absent key succeeds). -/
def Store.Delete (db : DB) (bucket key : Key) : DB × Option StoreErr :=
  match getBucket db bucket with
  | none => (db, some (.bucketNotExist bucket))
  | some b => (setBucket db bucket (erase b key), none)

/-- `Store.WalkPrefix`: seeks the cursor to the given byte string and invokes
the callback while keys keep that leading byte string; the result is the list
of (key, value) pairs passed to the callback, in invocation order. -/
def Store.WalkPrefix (db : DB) (bucket pre : Key) : Except StoreErr (List Entry) :=
  match getBucket db bucket with
  | none => .error (.bucketNotExist bucket)
  | some b => .ok ((seek b pre).takeWhile (fun e => hasPre pre e.1))

/-- The body of `Store.ReadBatch` once the bucket is in hand: collect entries
from `cursor.Seek(next)` while fewer than `count` are held, recording the last
collected key in `next`; afterwards reset `next` to the empty string when
fewer than `count` entries were collected.  Within one call the cursor's keys
strictly ascend, so the Go `map[string][]byte` holds exactly these entries;
the model keeps them as a list in cursor order. -/
def readBatchB (bk : Bucket) (next : Key) (count : Nat) : List Entry × Key :=
  let items := (seek bk next).take count
  let nx :=
    match items.getLast? with
    | some e => e.1
    | none => next
  (items, if items.length = count then nx else [])

/-- `Store.ReadBatch` (signature of the repository's
`ReadBatch(bucket, next string, count int)` variant; the `batch`-struct
variant in `store.go` performs the identical computation on its fields). -/
def Store.ReadBatch (db : DB) (bucket next : Key) (count : Nat) :
    Except StoreErr (List Entry × Key) :=
  match getBucket db bucket with
  | none => .error (.bucketNotExist bucket)
  | some bk => .ok (readBatchB bk next count)

/-- `Store.AllKeys`: collects every key of the bucket via `ForEach`, which
visits entries in cursor (ascending key) order. -/
def Store.AllKeys (db : DB) (bucket : Key) : Except StoreErr (List Key) :=
  match getBucket db bucket with
  | none => .error (.bucketNotExist bucket)
  | some b => .ok (b.map (fun e => e.1))

/-- `Store.FindKeys` as written in the repository: it appends every key
containing the needle onto the very slice returned by `AllKeys` (Go
`keys = append(keys, key)` inside `for _, key := range keys`, which iterates
over the original elements only), so the result is the full key list followed
by the matching keys. -/
def Store.FindKeys (db : DB) (bucket needle : Key) : Except StoreErr (List Key) :=
  match Store.AllKeys db bucket with
  | .error e => .error e
  | .ok keys => .ok (keys ++ keys.filter (fun k => containsSub k needle))

/-- The client-side pagination loop of the `ReadBatch` contract: start from a
resume key, call `Store.ReadBatch`, stop when the returned resume key is
empty, otherwise feed it back; `fuel` bounds the number of calls and the
result is `none` when the loop has not finished within `fuel` calls (or the
bucket is missing). -/
def paginate (db : DB) (bucket : Key) (count : Nat) : Nat → Key → Option (List Entry)
  | 0, _ => none
  | fuel + 1, next =>
    match Store.ReadBatch db bucket next count with
    | .error _ => none
    | .ok (items, nx) =>
      if nx = [] then some items
      else (paginate db bucket count fuel nx).map (fun rest => items ++ rest)

/-- Result of one `bolt.Open` attempt: a handle or an engine error (both
abstracted to numbers; only identity matters). -/
inductive OpenResult where
  | ok (handle : Nat)
  | fail (err : Nat)
deriving DecidableEq

/-- Outcome of `NewStore`: a store holding a handle, or the cannot-open error,
which carries the error value that `fmt.Errorf` formats into the message —
the function's outer `err` variable. -/
inductive NewStoreOutcome where
  | opened (handle : Nat)
  | cannotOpen (wrapped : Option Nat)
deriving DecidableEq

/-- The retry loop of `NewStore`: `rem` iterations remain, `tries` is the loop
counter (1, 3, …, 19), `errOuter` is the function-level `err` variable.  The
`db, err := bolt.Open(...)` statement declares a fresh `err` inside the loop
body, so the failure value of an attempt never reaches `errOuter`. -/
def newStoreLoop (attempt : Nat → OpenResult) :
    Nat → Nat → Option Nat → NewStoreOutcome
  | 0, _, errOuter => .cannotOpen errOuter
  | rem + 1, tries, errOuter =>
    match attempt tries with
    | .ok h => .opened h
    | .fail _ => newStoreLoop attempt rem (tries + 2) errOuter

/-- `NewStore`, parametrized by the engine's response to each open attempt
(indexed by the `tries` value): `var err error` starts nil, the loop runs for
`tries = 1, 3, …, 19` (ten attempts, each with timeout `1 << tries` ms), and
after exhaustion the cannot-open error is built from the outer `err`. -/
def NewStore (attempt : Nat → OpenResult) : NewStoreOutcome :=
  newStoreLoop attempt 10 1 none

/-- A bucket as the engine maintains it: entries strictly ascending in key
order (so keys are distinct) — the invariant behind every bbolt cursor. -/
def sortedB (bk : Bucket) : Prop :=
  List.Pairwise (fun x y : Entry => keyLt x.1 y.1 = true) bk

/-- Full well-formedness of an engine bucket: sorted, and no empty key —
bbolt rejects empty keys (`ErrKeyRequired`), which is what makes the empty
string usable as the pagination sentinel. -/
def wfBucket (bk : Bucket) : Prop :=
  sortedB bk ∧ ∀ e ∈ bk, e.1 ≠ ([] : Key)

instance : DecidablePred sortedB := fun bk =>
  inferInstanceAs (Decidable (List.Pairwise _ bk))

instance : DecidablePred wfBucket := fun bk =>
  inferInstanceAs (Decidable (sortedB bk ∧ ∀ e ∈ bk, e.1 ≠ ([] : Key)))

/-- The database root as the engine maintains it: bucket names strictly
ascending (bbolt stores top-level buckets in the root B+tree, sorted). -/
def sortedRoot (db : DB) : Prop :=
  List.Pairwise (fun x y : Key × Bucket => keyLt x.1 y.1 = true) db

instance : DecidablePred sortedRoot := fun db =>
  inferInstanceAs (Decidable (List.Pairwise _ db))

example : keyLt [1] [2] = true := by decide
example : keyLt [2] [1, 0] = false := by decide
example : keyLt [1] [1, 0] = true := by decide
example : hasPre [1] [1, 2] = true := by decide
example : containsSub [0, 1, 2] [1, 2] = true := by decide
example : containsSub [0, 2] [1] = false := by decide
example : readBatchB [([1], [5]), ([2], [6]), ([3], [7])] [] 2 =
    ([([1], [5]), ([2], [6])], [2]) := by decide
example : readBatchB [([1], [5]), ([2], [6]), ([3], [7])] [2] 2 =
    ([([2], [6]), ([3], [7])], [3]) := by decide
example : readBatchB [([1], [5]), ([2], [6]), ([3], [7])] [3] 2 =
    ([([3], [7])], []) := by decide
example : paginate [([0], [([1], [5]), ([2], [6]), ([3], [7])])] [0] 2 4 [] =
    some [([1], [5]), ([2], [6]), ([2], [6]), ([3], [7]), ([3], [7])] := by decide
example : paginate [([0], [([1], [5]), ([2], [6]), ([3], [7])])] [0] 1 30 [] =
    none := by decide
example : NewStore (fun t => OpenResult.fail t) = .cannotOpen none := by decide
example : NewStore (fun t => if t = 5 then .ok 42 else .fail t) = .opened 42 := by
  decide
example : Store.FindKeys [([1], [([1], []), ([1, 2], []), ([3], [])])] [1] [1] =
    .ok [[1], [1, 2], [3], [1], [1, 2]] := by decide

/-- Unfolding of `keyLt` on two non-empty keys, phrased as a proposition. -/
theorem keyLt_cons {u x : Nat} {us xs : Key} :
    keyLt (u :: us) (x :: xs) = true ↔ u < x ∨ (u = x ∧ keyLt us xs = true) := by
  simp only [keyLt]
  rcases Nat.lt_trichotomy u x with h | h | h
  · rw [if_pos h]; simp [h]
  · subst h
    rw [if_neg (Nat.lt_irrefl u), if_neg (Nat.lt_irrefl u)]
    simp
  · rw [if_neg (Nat.lt_asymm h), if_pos h]
    constructor
    · intro hh; exact absurd hh (by simp)
    · rintro (hh | ⟨hh, -⟩)
      · exact absurd hh (Nat.lt_asymm h)
      · exact absurd h (by omega)

/-- `keyLt` is irreflexive. -/
theorem keyLt_irrefl : ∀ k : Key, keyLt k k = false := by
  intro k
  induction k with
  | nil => rfl
  | cons a as ih => simp [keyLt, ih]

/-- Nothing is below the empty key. -/
theorem keyLt_nil_right : ∀ k : Key, keyLt k [] = false := by
  intro k; cases k <;> rfl

/-- The empty key is below every non-empty key. -/
theorem nil_keyLt {x : Nat} {xs : Key} : keyLt [] (x :: xs) = true := rfl

/-- `keyLt` is transitive. -/
theorem keyLt_trans : ∀ (a b c : Key),
    keyLt a b = true → keyLt b c = true → keyLt a c = true := by
  intro a
  induction a with
  | nil =>
    intro b c hab hbc
    cases b with
    | nil => simp [keyLt] at hab
    | cons x xs =>
      cases c with
      | nil => simp [keyLt_nil_right] at hbc
      | cons y ys => rfl
  | cons u us ih =>
    intro b c hab hbc
    cases b with
    | nil => simp [keyLt_nil_right] at hab
    | cons x xs =>
      cases c with
      | nil => simp [keyLt_nil_right] at hbc
      | cons y ys =>
        rw [keyLt_cons] at hab hbc ⊢
        rcases hab with h1 | ⟨h1, h1'⟩
        · rcases hbc with h2 | ⟨h2, h2'⟩
          · exact Or.inl (Nat.lt_trans h1 h2)
          · exact Or.inl (h2 ▸ h1)
        · rcases hbc with h2 | ⟨h2, h2'⟩
          · subst h1; exact Or.inl h2
          · exact Or.inr ⟨h1.trans h2, ih xs ys h1' h2'⟩

/-- `keyLt` is asymmetric. -/
theorem keyLt_asymm {a b : Key} (h : keyLt a b = true) : keyLt b a = false := by
  cases hrw : keyLt b a with
  | false => rfl
  | true =>
    have := keyLt_trans a b a h hrw
    rw [keyLt_irrefl] at this
    exact absurd this (by simp)

/-- Keys unrelated by `keyLt` in either direction are equal. -/
theorem keyLt_total : ∀ (a b : Key),
    keyLt a b = false → keyLt b a = false → a = b := by
  intro a
  induction a with
  | nil =>
    intro b h1 h2
    cases b with
    | nil => rfl
    | cons x xs => simp [keyLt] at h1
  | cons u us ih =>
    intro b h1 h2
    cases b with
    | nil => simp [keyLt] at h2
    | cons x xs =>
      have h1' : ¬(u < x ∨ (u = x ∧ keyLt us xs = true)) := by
        rw [← keyLt_cons]; simp [h1]
      have h2' : ¬(x < u ∨ (x = u ∧ keyLt xs us = true)) := by
        rw [← keyLt_cons]; simp [h2]
      push_neg at h1' h2'
      have hux : u = x := by omega
      subst hux
      have e1 : keyLt us xs = false := by
        have := h1'.2 rfl
        simpa using this
      have e2 : keyLt xs us = false := by
        have := h2'.2 rfl
        simpa using this
      rw [ih xs e1 e2]

/-- A key that starts with `p` is not below `p` in key order. -/
theorem hasPre_not_lt : ∀ (p k : Key), hasPre p k = true → keyLt k p = false := by
  intro p
  induction p with
  | nil => intro k _; exact keyLt_nil_right k
  | cons a as ih =>
    intro k h
    cases k with
    | nil => simp [hasPre] at h
    | cons b bs =>
      simp only [hasPre, Bool.and_eq_true, decide_eq_true_eq] at h
      obtain ⟨hab, h2⟩ := h
      subst hab
      rw [show keyLt (a :: bs) (a :: as) = keyLt bs as by simp [keyLt]]
      exact ih bs h2

/-- Keys starting with `p` are contiguous in key order: a key at least `p`
and below some key starting with `p` itself starts with `p`. -/
theorem hasPre_of_between : ∀ (p k j : Key),
    keyLt k p = false → keyLt k j = true → hasPre p j = true →
    hasPre p k = true := by
  intro p
  induction p with
  | nil => intro k j _ _ _; rfl
  | cons a as ih =>
    intro k j h1 h2 h3
    cases j with
    | nil => simp [hasPre] at h3
    | cons c cs =>
      simp only [hasPre, Bool.and_eq_true, decide_eq_true_eq] at h3
      obtain ⟨hac, h3'⟩ := h3
      subst hac
      cases k with
      | nil => simp [keyLt] at h1
      | cons b bs =>
        have h1' : ¬(b < a ∨ (b = a ∧ keyLt bs as = true)) := by
          rw [← keyLt_cons]; simp [h1]
        have h2' : b < a ∨ (b = a ∧ keyLt bs cs = true) := keyLt_cons.mp h2
        rcases h2' with hh | ⟨hh, hcs⟩
        · exact absurd (Or.inl hh) h1'
        · rw [hh]
          rw [show hasPre (a :: as) (a :: bs) = hasPre as bs by simp [hasPre]]
          have hba : keyLt bs as = false := by
            cases hrw : keyLt bs as with
            | false => rfl
            | true => exact absurd (Or.inr ⟨hh, hrw⟩) h1'
          exact ih bs cs hba hcs h3'

/-- `keyLe` is reflexive. -/
theorem keyLe_refl (a : Key) : keyLe a a = true := by
  simp [keyLe, keyLt_irrefl]

/-- Strict order implies non-strict order on keys. -/
theorem keyLe_of_lt {a b : Key} (h : keyLt a b = true) : keyLe a b = true := by
  simp [keyLe, keyLt_asymm h]

/-- A successful root lookup returns an entry of the root list. -/
theorem getBucket_some_mem : ∀ (db : DB) (b : Key) (bk : Bucket),
    getBucket db b = some bk → (b, bk) ∈ db := by
  intro db b bk
  induction db with
  | nil => intro h; exact absurd h (by simp [getBucket])
  | cons e rest ih =>
    intro h
    obtain ⟨n, bb⟩ := e
    by_cases hn : n = b
    · subst hn
      have h' : bb = bk := by simpa [getBucket] using h
      subst h'
      exact List.mem_cons_self _ _
    · simp only [getBucket, if_neg hn] at h
      exact List.mem_cons_of_mem _ (ih h)

/-- Lookup after `tx.CreateBucketIfNotExists` succeeds. -/
theorem getBucket_create_isSome : ∀ (db : DB) (b : Key),
    (getBucket (createBucketIfNotExists db b) b).isSome = true := by
  intro db b
  induction db with
  | nil => simp [createBucketIfNotExists, getBucket]
  | cons e rest ih =>
    obtain ⟨n, bb⟩ := e
    by_cases hn : n = b
    · subst hn; simp [createBucketIfNotExists, getBucket]
    · by_cases hlt : keyLt b n = true
      · simp [createBucketIfNotExists, hn, hlt, getBucket]
      · simp [createBucketIfNotExists, hn, hlt, getBucket, ih]

/-- Replacing a bucket's contents is what later lookups of that name see. -/
theorem getBucket_setBucket_self : ∀ (db : DB) (b : Key) (nb : Bucket),
    (getBucket db b).isSome = true → getBucket (setBucket db b nb) b = some nb := by
  intro db b nb
  induction db with
  | nil => intro h; simp [getBucket] at h
  | cons e rest ih =>
    intro h
    obtain ⟨n, bb⟩ := e
    by_cases hn : n = b
    · subst hn; simp [setBucket, getBucket]
    · have h' : (getBucket rest b).isSome = true := by
        simpa [getBucket, hn] using h
      simp [setBucket, hn, getBucket, ih h']

/-- Reading back the key just put returns the value just put. -/
theorem get_put_self : ∀ (bk : Bucket) (k : Key) (v : Val),
    bucketGet (put bk k v) k = some v := by
  intro bk k v
  induction bk with
  | nil => simp [put, bucketGet]
  | cons e rest ih =>
    obtain ⟨k0, v0⟩ := e
    by_cases hlt : keyLt k k0 = true
    · simp [put, hlt, bucketGet]
    · by_cases heq : k0 = k
      · simp [put, hlt, heq, bucketGet, keyLt_irrefl]
      · simp [put, hlt, heq, bucketGet, ih]

/-- Creating an already-present bucket leaves a sorted root unchanged. -/
theorem create_noop_of_present : ∀ (db : DB) (b : Key) (bk : Bucket),
    sortedRoot db → getBucket db b = some bk → createBucketIfNotExists db b = db := by
  intro db b bk
  induction db with
  | nil => intro _ h; simp [getBucket] at h
  | cons e rest ih =>
    intro hroot h
    obtain ⟨n, bb⟩ := e
    by_cases hn : n = b
    · simp [createBucketIfNotExists, hn]
    · have hrest : getBucket rest b = some bk := by
        simpa [getBucket, hn] using h
      have hmem : (b, bk) ∈ rest := getBucket_some_mem rest b bk hrest
      obtain ⟨hhead, htail⟩ := List.pairwise_cons.mp hroot
      have hlt : keyLt n b = true := hhead (b, bk) hmem
      have hnlt : ¬ keyLt b n = true := by simp [keyLt_asymm hlt]
      simp [createBucketIfNotExists, hn, hnlt, ih htail hrest]

/-- A name below every name of the root is absent from the root. -/
theorem getBucket_none_of_all_gt : ∀ (db : DB) (b : Key),
    (∀ x ∈ db, keyLt b x.1 = true) → getBucket db b = none := by
  intro db b
  induction db with
  | nil => intro _; rfl
  | cons e rest ih =>
    intro h
    obtain ⟨n, bb⟩ := e
    have hn : keyLt b n = true := h (n, bb) (List.mem_cons_self _ _)
    have hne : n ≠ b := by
      intro he; subst he
      rw [keyLt_irrefl] at hn
      exact absurd hn (by simp)
    simp [getBucket, hne, ih (fun x hx => h x (List.mem_cons_of_mem _ hx))]

/-- Dropping a bucket from a sorted root makes its name unresolvable. -/
theorem getBucket_dropBucket_self : ∀ (db : DB) (b : Key),
    sortedRoot db → getBucket (dropBucket db b) b = none := by
  intro db b
  induction db with
  | nil => intro _; rfl
  | cons e rest ih =>
    intro hroot
    obtain ⟨n, bb⟩ := e
    obtain ⟨hhead, htail⟩ := List.pairwise_cons.mp hroot
    by_cases hn : n = b
    · subst hn
      simp only [dropBucket, if_pos rfl]
      exact getBucket_none_of_all_gt rest n (fun x hx => hhead x hx)
    · simp [dropBucket, hn, getBucket, ih htail]

/-- Claim C3: key operations against a bucket name on which `CreateBucket`
has not succeeded fail with the bucket-not-exist error and leave the whole
database (the set of buckets and all their contents) unchanged; in
particular the bucket is not created. -/
theorem missingBucket_ops_fail (db : DB) (b k : Key) (v : Val)
    (h : getBucket db b = none) :
    Store.Write db b k v = (db, some (StoreErr.bucketNotExist b)) ∧
    Store.Read db b k = (none, some (StoreErr.bucketNotExist b)) ∧
    Store.Delete db b k = (db, some (StoreErr.bucketNotExist b)) := by
  refine ⟨?_, ?_, ?_⟩ <;> simp [Store.Write, Store.Read, Store.Delete, h]

/-- Witness for C3 at a concrete database lacking bucket `[9]`. -/
theorem missingBucket_ops_fail_witness :
    Store.Write [([1], [([2], [3])])] [9] [2] [5] =
      ([([1], [([2], [3])])], some (StoreErr.bucketNotExist [9])) ∧
    Store.Read [([1], [([2], [3])])] [9] [2] =
      (none, some (StoreErr.bucketNotExist [9])) ∧
    Store.Delete [([1], [([2], [3])])] [9] [2] =
      ([([1], [([2], [3])])], some (StoreErr.bucketNotExist [9])) :=
  missingBucket_ops_fail [([1], [([2], [3])])] [9] [2] [5] (by decide)

/-- Claim C7: `CreateBucket` always succeeds, afterwards the bucket exists,
and on a (sorted, as bbolt maintains it) root already containing the bucket
the call is a no-op that leaves the database — hence the existing bucket and
all its entries — unchanged. -/
theorem createBucket_idempotent (db : DB) (b : Key) (hroot : sortedRoot db) :
    (Store.CreateBucket db b).2 = none ∧
    (getBucket (Store.CreateBucket db b).1 b).isSome = true ∧
    ∀ bk, getBucket db b = some bk → Store.CreateBucket db b = (db, none) := by
  refine ⟨rfl, getBucket_create_isSome db b, ?_⟩
  intro bk hbk
  simp only [Store.CreateBucket, Prod.mk.injEq, and_true]
  exact create_noop_of_present db b bk hroot hbk

/-- Witness for C7: creating bucket `[1]` again in a database that has it is
a successful no-op. -/
theorem createBucket_idempotent_witness :
    Store.CreateBucket [([1], [([2], [3])])] [1] = ([([1], [([2], [3])])], none) :=
  (createBucket_idempotent [([1], [([2], [3])])] [1] (by decide)).2.2
    [([2], [3])] (by decide)

/-- Claim C9: `DeleteBucket` on an absent bucket name fails and leaves the
database unchanged, while on an existing bucket (sorted root, as bbolt
maintains it) it succeeds and removes the bucket with all its entries. -/
theorem deleteBucket_spec (db : DB) (b : Key) (hroot : sortedRoot db) :
    (getBucket db b = none →
      Store.DeleteBucket db b = (db, some (StoreErr.bucketDeleteFailed b))) ∧
    ((getBucket db b).isSome = true →
      (Store.DeleteBucket db b).2 = none ∧
      getBucket (Store.DeleteBucket db b).1 b = none) := by
  constructor
  · intro h; simp [Store.DeleteBucket, h]
  · intro h
    obtain ⟨bk, hbk⟩ := Option.isSome_iff_exists.mp h
    simp [Store.DeleteBucket, hbk, getBucket_dropBucket_self db b hroot]

/-- Witness for C9: deleting absent bucket `[9]` fails; deleting existing
bucket `[1]` succeeds and removes it. -/
theorem deleteBucket_spec_witness :
    Store.DeleteBucket [([1], [([2], [3])])] [9] =
      ([([1], [([2], [3])])], some (StoreErr.bucketDeleteFailed [9])) ∧
    (Store.DeleteBucket [([1], [([2], [3])])] [1]).2 = none ∧
    getBucket (Store.DeleteBucket [([1], [([2], [3])])] [1]).1 [1] = none := by
  refine ⟨(deleteBucket_spec [([1], [([2], [3])])] [9] (by decide)).1 (by decide), ?_⟩
  exact (deleteBucket_spec [([1], [([2], [3])])] [1] (by decide)).2 (by decide)

/-- Claim C8: after creating the bucket, a write followed by a read returns
exactly the written value, and two writes to the same key followed by a read
return the second value — a put replaces. -/
theorem write_read_roundtrip (db : DB) (b k : Key) (v v1 v2 : Val) :
    Store.Read (Store.Write (Store.CreateBucket db b).1 b k v).1 b k =
      (some v, none) ∧
    Store.Read
        (Store.Write (Store.Write (Store.CreateBucket db b).1 b k v1).1 b k v2).1
        b k = (some v2, none) := by
  have h0 : (getBucket (createBucketIfNotExists db b) b).isSome = true :=
    getBucket_create_isSome db b
  obtain ⟨bk0, hbk0⟩ := Option.isSome_iff_exists.mp h0
  constructor
  · have hw : Store.Write (Store.CreateBucket db b).1 b k v =
        (setBucket (createBucketIfNotExists db b) b (put bk0 k v), none) := by
      simp [Store.Write, Store.CreateBucket, hbk0]
    rw [hw]
    have hg := getBucket_setBucket_self (createBucketIfNotExists db b) b
      (put bk0 k v) h0
    simp [Store.Read, hg, get_put_self]
  · have hw1 : Store.Write (Store.CreateBucket db b).1 b k v1 =
        (setBucket (createBucketIfNotExists db b) b (put bk0 k v1), none) := by
      simp [Store.Write, Store.CreateBucket, hbk0]
    rw [hw1]
    have hg1 := getBucket_setBucket_self (createBucketIfNotExists db b) b
      (put bk0 k v1) h0
    have hw2 : Store.Write
        (setBucket (createBucketIfNotExists db b) b (put bk0 k v1)) b k v2 =
        (setBucket (setBucket (createBucketIfNotExists db b) b (put bk0 k v1)) b
          (put (put bk0 k v1) k v2), none) := by
      simp [Store.Write, hg1]
    rw [hw2]
    have hg2 := getBucket_setBucket_self
      (setBucket (createBucketIfNotExists db b) b (put bk0 k v1)) b
      (put (put bk0 k v1) k v2) (by simp [hg1])
    simp [Store.Read, hg2, get_put_self]

/-- Claim C2 counterexample: on a database whose bucket `[1]` exists but
lacks key `[5]`, `Read` returns a non-nil error, contradicting the claim
that a missing key yields an absent value with no error. -/
theorem read_missing_key_cex :
    (getBucket [([1], [([2], [3])])] [1]).isSome = true ∧
    bucketGet [([2], [3])] [5] = none ∧
    (Store.Read [([1], [([2], [3])])] [1] [5]).2 ≠ none := by
  exact ⟨by decide, by decide, by decide⟩

/-- Claim C2 (amended): `Read` on an existing bucket with a key absent from
that bucket returns a nil value together with a key-not-exist error. -/
theorem read_missing_key (db : DB) (b k : Key) (bk : Bucket)
    (hb : getBucket db b = some bk) (hk : bucketGet bk k = none) :
    Store.Read db b k = (none, some (StoreErr.keyNotExist k)) := by
  simp [Store.Read, hb, hk]

/-- Witness for the amended C2 at a concrete database. -/
theorem read_missing_key_witness :
    Store.Read [([1], [([2], [3])])] [1] [5] =
      (none, some (StoreErr.keyNotExist [5])) :=
  read_missing_key [([1], [([2], [3])])] [1] [5] [([2], [3])] (by decide) (by decide)

/-- On a sorted list whose entries are all at least `p` in key order, stopping
at the first key without the leading byte string `p` (the scan loop) equals
filtering by it: matches are contiguous at the front. -/
theorem takeWhile_eq_filter_of_ge : ∀ (l : List Entry) (p : Key),
    List.Pairwise (fun x y : Entry => keyLt x.1 y.1 = true) l →
    (∀ e ∈ l, keyLt e.1 p = false) →
    l.takeWhile (fun e => hasPre p e.1) = l.filter (fun e => hasPre p e.1) := by
  intro l p
  induction l with
  | nil => intro _ _; rfl
  | cons e rest ih =>
    intro hs hge
    obtain ⟨hhead, htail⟩ := List.pairwise_cons.mp hs
    by_cases hp : hasPre p e.1 = true
    · rw [List.takeWhile_cons, List.filter_cons]
      simp only [hp, if_true]
      rw [ih htail (fun x hx => hge x (List.mem_cons_of_mem _ hx))]
    · have hp' : hasPre p e.1 = false := by simpa using hp
      rw [List.takeWhile_cons, List.filter_cons]
      simp only [hp', Bool.false_eq_true, if_false]
      have hnil : rest.filter (fun x => hasPre p x.1) = [] := by
        rw [List.filter_eq_nil_iff]
        intro x hx hpx
        have hx1 : hasPre p e.1 = true :=
          hasPre_of_between p e.1 x.1 (hge e (List.mem_cons_self _ _)) (hhead x hx)
            (by simpa using hpx)
        rw [hx1] at hp'
        exact absurd hp' (by simp)
      rw [hnil]

/-- The seek-then-scan of `WalkPrefix` on a sorted bucket computes the filter
of the whole bucket by the leading byte string. -/
theorem seek_takeWhile_eq_filter : ∀ (bk : Bucket) (p : Key),
    List.Pairwise (fun x y : Entry => keyLt x.1 y.1 = true) bk →
    (seek bk p).takeWhile (fun e => hasPre p e.1) =
      bk.filter (fun e => hasPre p e.1) := by
  intro bk p
  induction bk with
  | nil => intro _; rfl
  | cons e rest ih =>
    intro hs
    obtain ⟨hhead, htail⟩ := List.pairwise_cons.mp hs
    by_cases hlt : keyLt e.1 p = true
    · have hp : hasPre p e.1 = false := by
        cases hrw : hasPre p e.1 with
        | false => rfl
        | true =>
          rw [hasPre_not_lt p e.1 hrw] at hlt
          exact absurd hlt (by simp)
      rw [show seek (e :: rest) p = seek rest p by
        simp [seek, List.dropWhile_cons, hlt]]
      rw [ih htail]
      simp [List.filter_cons, hp]
    · rw [show seek (e :: rest) p = e :: rest by
        simp [seek, List.dropWhile_cons, hlt]]
      apply takeWhile_eq_filter_of_ge (e :: rest) p hs
      intro x hx
      rcases List.mem_cons.mp hx with h | h
      · subst h; simpa using hlt
      · cases hrw : keyLt x.1 p with
        | false => rfl
        | true =>
          have := keyLt_trans e.1 x.1 p (hhead x h) hrw
          exact absurd this hlt

/-- Claim C4: for an existing, sorted bucket, `WalkPrefix` invokes the
callback exactly on the entries whose key starts byte-for-byte with the given
byte string — each exactly once, in ascending key order (the result keeps the
bucket's strictly ascending key order) — and on no other key. -/
theorem walkPrefix_filter (db : DB) (b p : Key) (bk : Bucket)
    (hb : getBucket db b = some bk) (hs : sortedB bk) :
    Store.WalkPrefix db b p = .ok (bk.filter (fun e => hasPre p e.1)) ∧
    List.Pairwise (fun x y : Entry => keyLt x.1 y.1 = true)
      (bk.filter (fun e => hasPre p e.1)) := by
  constructor
  · simp only [Store.WalkPrefix, hb]
    rw [seek_takeWhile_eq_filter bk p hs]
  · exact hs.sublist (List.filter_sublist bk)

/-- Witness for C4: the spec's example — keys "10", "100", "11", "2" (bytes)
with leading string "1" yield exactly "10", "100", "11" in byte order. -/
theorem walkPrefix_filter_witness :
    Store.WalkPrefix
      [([7], [([49, 48], [1]), ([49, 48, 48], [2]), ([49, 49], [3]), ([50], [4])])]
      [7] [49] =
      .ok [([49, 48], [1]), ([49, 48, 48], [2]), ([49, 49], [3])] := by
  have h := walkPrefix_filter
    [([7], [([49, 48], [1]), ([49, 48, 48], [2]), ([49, 49], [3]), ([50], [4])])]
    [7] [49] [([49, 48], [1]), ([49, 48, 48], [2]), ([49, 49], [3]), ([50], [4])]
    (by decide) (by decide)
  rw [h.1]
  decide

/-- Seeking at the empty key lands on the first entry: nothing is below `[]`. -/
theorem seek_nil : ∀ bk : Bucket, seek bk [] = bk := by
  intro bk
  cases bk with
  | nil => rfl
  | cons e rest => simp [seek, List.dropWhile_cons, keyLt_nil_right]

/-- Seeking a sorted bucket at the key of one of its entries lands exactly on
that entry. -/
theorem seek_mem_head : ∀ (bk : Bucket) (e : Entry),
    sortedB bk → e ∈ bk → ∃ t, seek bk e.1 = e :: t := by
  intro bk e
  induction bk with
  | nil => intro _ h; simp at h
  | cons f rest ih =>
    intro hs hmem
    obtain ⟨hhead, htail⟩ := List.pairwise_cons.mp hs
    rcases List.mem_cons.mp hmem with h | h
    · subst h
      refine ⟨rest, ?_⟩
      simp [seek, List.dropWhile_cons, keyLt_irrefl]
    · have hlt : keyLt f.1 e.1 = true := hhead e h
      rw [show seek (f :: rest) e.1 = seek rest e.1 by
        simp [seek, List.dropWhile_cons, hlt]]
      exact ih htail h

/-- With `count = 1`, from any reachable resume state (initial empty key or
the key of some entry), the pagination loop on a non-empty well-formed bucket
runs out of any fuel bound: every call returns the resume key it was given
(or the first key), never the empty completion signal. -/
theorem paginate_one_none (db : DB) (b : Key) (bk : Bucket)
    (hb : getBucket db b = some bk) (hwf : wfBucket bk) (hne : bk ≠ []) :
    ∀ fuel next, (next = [] ∨ ∃ e ∈ bk, next = e.1) →
      paginate db b 1 fuel next = none := by
  obtain ⟨hs, hkeys⟩ := hwf
  intro fuel
  induction fuel with
  | zero => intro next _; rfl
  | succ n ih =>
    intro next hnext
    have hstep : ∃ e ∈ bk, Store.ReadBatch db b next 1 = .ok ([e], e.1) := by
      rcases hnext with h | ⟨e, hmem, he⟩
      · subst h
        obtain ⟨f, rest, hbk⟩ := List.exists_cons_of_ne_nil hne
        refine ⟨f, by rw [hbk]; exact List.mem_cons_self _ _, ?_⟩
        simp [Store.ReadBatch, hb, readBatchB, seek_nil, hbk]
      · subst he
        obtain ⟨t, ht⟩ := seek_mem_head bk e hs hmem
        refine ⟨e, hmem, ?_⟩
        simp [Store.ReadBatch, hb, readBatchB, ht]
    obtain ⟨e, hmem, hstep'⟩ := hstep
    have hne' : e.1 ≠ [] := hkeys e hmem
    have hunfold : paginate db b 1 (n + 1) next =
        (paginate db b 1 n e.1).map (fun rest => [e] ++ rest) := by
      rw [paginate, hstep']
      simp [hne']
    rw [hunfold, ih e.1 (Or.inr ⟨e, hmem, rfl⟩)]
    rfl

/-- Claim C10: with `count = 1` and a resume key present in the (well-formed)
bucket, `ReadBatch` returns exactly that one entry and hands the same key
back as the next resume key; consequently on a non-empty bucket the feedback
pagination loop never returns an empty resume key — it never signals
completion within any number of calls. -/
theorem readBatch_count_one (db : DB) (b : Key) (bk : Bucket)
    (hb : getBucket db b = some bk) (hwf : wfBucket bk) :
    (∀ e ∈ bk, Store.ReadBatch db b e.1 1 = .ok ([e], e.1)) ∧
    (bk ≠ [] → ∀ fuel, paginate db b 1 fuel [] = none) := by
  constructor
  · intro e hmem
    obtain ⟨t, ht⟩ := seek_mem_head bk e hwf.1 hmem
    simp [Store.ReadBatch, hb, readBatchB, ht]
  · intro hne fuel
    exact paginate_one_none db b bk hb hwf hne fuel [] (Or.inl rfl)

/-- Witness for C10 at a concrete two-entry bucket: resuming at key [1] with
count 1 returns that entry and the same resume key, and the loop from the
start has not completed within six calls. -/
theorem readBatch_count_one_witness :
    Store.ReadBatch [([0], [([1], [7]), ([2], [8])])] [0] [1] 1 =
      .ok ([([1], [7])], [1]) ∧
    paginate [([0], [([1], [7]), ([2], [8])])] [0] 1 6 [] = none := by
  have h := readBatch_count_one [([0], [([1], [7]), ([2], [8])])] [0]
    [([1], [7]), ([2], [8])] (by decide) (by constructor <;> decide)
  exact ⟨h.1 ([1], [7]) (by decide), h.2 (by decide) 6⟩

/-- Seeking a sorted bucket at the key of its `i`-th entry drops exactly the
first `i` entries. -/
theorem seek_drop : ∀ (bk : Bucket), sortedB bk →
    ∀ i (h : i < bk.length), seek bk (bk[i].1) = bk.drop i := by
  intro bk
  induction bk with
  | nil => intro _ i h; simp at h
  | cons f rest ih =>
    intro hs i h
    obtain ⟨hhead, htail⟩ := List.pairwise_cons.mp hs
    cases i with
    | zero =>
      simp only [List.getElem_cons_zero, List.drop_zero]
      simp [seek, List.dropWhile_cons, keyLt_irrefl]
    | succ n =>
      have hn : n < rest.length := by simpa using h
      have hmem : rest[n] ∈ rest := List.getElem_mem hn
      have hlt : keyLt f.1 (rest[n]).1 = true := hhead _ hmem
      have hg : (f :: rest)[n + 1] = rest[n] := by simp
      rw [hg]
      rw [show seek (f :: rest) (rest[n]).1 = seek rest (rest[n]).1 by
        simp [seek, List.dropWhile_cons, hlt]]
      rw [ih htail n hn]
      simp

/-- Pagination driver invariant for `count ≥ 2`: from a resume state whose
seek lands on the suffix `bk.drop i`, the loop finishes within any fuel
exceeding the suffix length, its visits are exactly the entries of the suffix
(each at least once), in non-decreasing key order, starting at the suffix's
head. -/
theorem paginate_drop (db : DB) (b : Key) (bk : Bucket) (count : Nat)
    (hb : getBucket db b = some bk) (hwf : wfBucket bk) (hc : 2 ≤ count) :
    ∀ (fuel i : Nat) (next : Key), seek bk next = bk.drop i →
      bk.length - i < fuel →
      ∃ v, paginate db b count fuel next = some v ∧
        (∀ e, e ∈ v ↔ e ∈ bk.drop i) ∧
        List.Chain' (fun x y : Entry => keyLe x.1 y.1 = true) v ∧
        v.head? = (bk.drop i).head? := by
  obtain ⟨hsort, hkeys⟩ := hwf
  intro fuel
  induction fuel with
  | zero => intro i next _ hlt; omega
  | succ n ih =>
    intro i next hseek hfuel
    have hslen : (bk.drop i).length = bk.length - i := by simp
    by_cases hm : bk.length - i < count
    · -- final batch: the whole suffix fits, resume key resets to empty
      have hitems : (seek bk next).take count = bk.drop i := by
        rw [hseek]
        exact List.take_of_length_le (by omega)
      have hrb : Store.ReadBatch db b next count = .ok (bk.drop i, []) := by
        have hlen' : ¬((bk.drop i).length = count) := by omega
        simp only [Store.ReadBatch, hb, readBatchB, hitems]
        rw [if_neg hlen']
      refine ⟨bk.drop i, ?_, fun e => Iff.rfl, ?_, rfl⟩
      · rw [paginate, hrb]
        simp
      · have hp : List.Pairwise (fun x y : Entry => keyLt x.1 y.1 = true)
            (bk.drop i) := hsort.sublist (List.drop_sublist i bk)
        exact hp.chain'.imp (fun x y h => keyLe_of_lt h)
    · -- full batch: count entries collected, resume at the batch's last key
      have hcle : count ≤ bk.length - i := by omega
      have hip : i + (count - 1) < bk.length := by omega
      have hidx : count - 1 < (bk.drop i).length := by omega
      have htake : (seek bk next).take count = (bk.drop i).take count := by
        rw [hseek]
      have hlen_take : ((bk.drop i).take count).length = count := by
        rw [List.length_take]
        omega
      have hsplit : (bk.drop i).take count =
          (bk.drop i).take (count - 1) ++ [(bk.drop i)[count - 1]] := by
        conv_lhs => rw [show count = (count - 1) + 1 by omega]
        rw [List.take_succ, List.getElem?_eq_getElem hidx]
        rfl
      have hlast : ((bk.drop i).take count).getLast? =
          some ((bk.drop i)[count - 1]) := by
        rw [hsplit, List.getLast?_concat]
      have hgd : (bk.drop i)[count - 1] = bk[i + (count - 1)] := by
        rw [List.getElem_drop]
      have hrb : Store.ReadBatch db b next count =
          .ok ((bk.drop i).take count, (bk[i + (count - 1)]).1) := by
        simp only [Store.ReadBatch, hb, readBatchB, htake, hlast, hlen_take, hgd]
        simp
      have hmembk : bk[i + (count - 1)] ∈ bk := List.getElem_mem hip
      have hne_key : (bk[i + (count - 1)]).1 ≠ [] := hkeys _ hmembk
      have hseek' : seek bk ((bk[i + (count - 1)]).1) = bk.drop (i + (count - 1)) :=
        seek_drop bk hsort (i + (count - 1)) hip
      obtain ⟨v', hv', hmem', hchain', hhead'⟩ :=
        ih (i + (count - 1)) ((bk[i + (count - 1)]).1) hseek' (by omega)
      have hddrop : bk.drop (i + (count - 1)) = (bk.drop i).drop (count - 1) := by
        rw [List.drop_drop]
      have hcons : (bk.drop i).drop (count - 1) =
          (bk.drop i)[count - 1] :: (bk.drop i).drop count := by
        rw [List.drop_eq_getElem_cons hidx, show count - 1 + 1 = count by omega]
      refine ⟨(bk.drop i).take count ++ v', ?_, ?_, ?_, ?_⟩
      · rw [paginate, hrb]
        simp [hne_key, hv']
      · intro e
        rw [List.mem_append]
        constructor
        · rintro (h | h)
          · exact (List.take_sublist count (bk.drop i)).subset h
          · have : e ∈ bk.drop (i + (count - 1)) := (hmem' e).mp h
            rw [hddrop, hcons] at this
            rcases List.mem_cons.mp this with h' | h'
            · rw [h']
              exact (List.take_sublist count (bk.drop i)).subset
                (by rw [hsplit]; exact List.mem_append_right _ (List.mem_singleton_self _))
            · exact (List.drop_sublist count (bk.drop i)).subset h'
        · intro h
          rw [← List.take_append_drop count (bk.drop i), List.mem_append] at h
          rcases h with h | h
          · exact Or.inl h
          · refine Or.inr ((hmem' e).mpr ?_)
            rw [hddrop, hcons]
            exact List.mem_cons_of_mem _ h
      · rw [List.chain'_append]
        refine ⟨?_, hchain', ?_⟩
        · have hp : List.Pairwise (fun x y : Entry => keyLt x.1 y.1 = true)
              ((bk.drop i).take count) :=
            (hsort.sublist (List.drop_sublist i bk)).sublist
              (List.take_sublist count (bk.drop i))
          exact hp.chain'.imp (fun x y h => keyLe_of_lt h)
        · intro x hx y hy
          rw [hlast, Option.mem_some_iff] at hx
          rw [hhead', hddrop, hcons] at hy
          simp only [List.head?_cons, Option.mem_some_iff] at hy
          rw [← hx, ← hy]
          exact keyLe_refl _
      · have hne_items : (bk.drop i).take count ≠ [] := by
          intro hnil
          rw [hnil] at hlen_take
          simp at hlen_take
          omega
        obtain ⟨a, items', hitems_eq⟩ := List.exists_cons_of_ne_nil hne_items
        have hsuffix_ne : bk.drop i ≠ [] := by
          intro hnil
          rw [hnil] at hlen_take
          simp at hlen_take
          omega
        obtain ⟨s0, stail, hsfx⟩ := List.exists_cons_of_ne_nil hsuffix_ne
        have ha : a = s0 := by
          have := hitems_eq
          rw [hsfx] at this
          rw [show count = (count - 1) + 1 by omega] at this
          simp only [List.take_succ_cons, List.cons.injEq] at this
          exact this.1.symm
        rw [hitems_eq, ha, hsfx]
        simp

/-- Claim C1 counterexample: on the bucket with keys [1], [2], [3] and
count 2, the feedback pagination loop terminates but visits the entries with
keys [2] and [3] twice each — not exactly once; and with count 1 on the same
bucket it has not completed within 30 calls (see the count-one theorem: it
never completes). -/
theorem readBatch_pagination_cex :
    paginate [([0], [([1], [5]), ([2], [6]), ([3], [7])])] [0] 2 4 [] =
      some [([1], [5]), ([2], [6]), ([2], [6]), ([3], [7]), ([3], [7])] ∧
    paginate [([0], [([1], [5]), ([2], [6]), ([3], [7])])] [0] 1 30 [] = none := by
  exact ⟨by decide, by decide⟩

/-- Claim C1 (amended): for an existing well-formed bucket and any fixed
count ≥ 2, repeated `ReadBatch` calls starting from the empty resume key and
feeding back the returned resume key terminate (within bucket length + 1
calls, via an empty returned resume key), and the combined visits are exactly
the bucket's entries — every entry visited at least once, in non-decreasing
key order, with the boundary entry of each full batch re-visited by the next
call. -/
theorem readBatch_pagination (db : DB) (b : Key) (bk : Bucket)
    (hb : getBucket db b = some bk) (hwf : wfBucket bk) (count : Nat)
    (hc : 2 ≤ count) :
    ∃ v, paginate db b count (bk.length + 1) [] = some v ∧
      (∀ e, e ∈ v ↔ e ∈ bk) ∧
      List.Chain' (fun x y : Entry => keyLe x.1 y.1 = true) v := by
  obtain ⟨v, hv, hmem, hchain, -⟩ := paginate_drop db b bk count hb hwf hc
    (bk.length + 1) 0 [] (by rw [seek_nil]; rfl) (by omega)
  refine ⟨v, hv, ?_, hchain⟩
  simpa using hmem

/-- Witness for the amended C1: the loop completes on the three-entry sample
bucket with count 2 and fuel 4. -/
theorem readBatch_pagination_witness :
    (paginate [([0], [([1], [5]), ([2], [6]), ([3], [7])])] [0] 2 4 []).isSome =
      true := by
  obtain ⟨v, hv, -, -⟩ := readBatch_pagination
    [([0], [([1], [5]), ([2], [6]), ([3], [7])])] [0]
    [([1], [5]), ([2], [6]), ([3], [7])] (by decide) (by constructor <;> decide) 2
    (by omega)
  show (paginate [([0], [([1], [5]), ([2], [6]), ([3], [7])])] [0] 2
    (([([1], [5]), ([2], [6]), ([3], [7])] : Bucket).length + 1) []).isSome = true
  rw [hv]
  rfl

/-- Claim C5: evaluation of `NewStore` at a failing input.  When every one of
the ten open attempts fails (here attempt `tries` fails with engine error
`tries`), the function returns the cannot-open outcome only after the whole
retry schedule, but it wraps `none` — the function-level `err` that is still
nil because the loop's `db, err := bolt.Open(...)` declares a fresh shadowed
`err` — instead of the error of the final attempt at `tries = 19`. -/
theorem newStore_wraps_shadowed_nil :
    NewStore (fun t => OpenResult.fail t) = .cannotOpen none ∧
    (fun t => OpenResult.fail t) 19 = .fail 19 ∧
    NewStore (fun t => OpenResult.fail t) ≠ .cannotOpen (some 19) := by
  exact ⟨by decide, rfl, by decide⟩

/-- Claim C6: evaluation of `FindKeys` at a failing input.  The bucket holds
keys [1], [1,2], [3]; the needle [1] is contained in the first two, but the
code appends the matches onto the full `AllKeys` list and returns everything,
not exactly the matching subset. -/
theorem findKeys_appends_to_all :
    Store.AllKeys [([1], [([1], [7]), ([1, 2], [8]), ([3], [9])])] [1] =
      .ok [[1], [1, 2], [3]] ∧
    Store.FindKeys [([1], [([1], [7]), ([1, 2], [8]), ([3], [9])])] [1] [1] =
      .ok [[1], [1, 2], [3], [1], [1, 2]] ∧
    Store.FindKeys [([1], [([1], [7]), ([1, 2], [8]), ([3], [9])])] [1] [1] ≠
      .ok [[1], [1, 2]] := by
  exact ⟨by decide, by decide, by decide⟩
